import Mathlib

/-!
Shallow embedding of the arena hero-selection core of `bestmobabot`
(`bestmobabot/arena.py`, with the data model from `bestmobabot/responses.py`
and the constants from `bestmobabot/constants.py`).

Modelling conventions:
* A hero (`responses.Hero`) is a record of its identifier (a string in the
  source), level, color, star and optional power, together with the feature
  vector that the source lazily attaches to the hero object once a model is
  bound (`hero.features`).  Feature vectors are rational-valued lists;
  `numpy` element-wise addition and subtraction become `List.zipWith`.
* The trained estimator (`model.estimator.predict_proba(...)[:, 1]`) is an
  external collaborator; it enters the embedding as an opaque scoring
  function `predict : List Rat -> Rat` applied row-wise to the batch.
* Fallible code returns `Option` or `Except`: the points where the Python
  code raises (empty `reduce`, empty candidate batch, exhausted iterator,
  unbound loop variable) become the error branches.
-/

namespace Bestmobabot

/-- Embedding of `responses.Hero`: identifier, level, color, star, optional
power, plus the lazily attached model feature vector (`hero.features`). -/
structure Hero where
  id : String
  level : Nat
  color : Nat
  star : Nat
  power : Option Int
  features : List Rat
deriving DecidableEq, Repr

/-- Embedding of `constants.TEAM_SIZE`. -/
def TEAM_SIZE : Nat := 5

/-- Embedding of `constants.N_GRAND_TEAMS`. -/
def N_GRAND_TEAMS : Nat := 3

/-- Element-wise vector addition (`numpy.add` on equal-shaped arrays). -/
def vadd (a b : List Rat) : List Rat := List.zipWith (· + ·) a b

/-- Element-wise vector subtraction (`numpy` row minus vector). -/
def vsub (a b : List Rat) : List Rat := List.zipWith (· - ·) a b

/-- Embedding of `itertools.combinations`: all `k`-element subsequences of
the input, in the order `itertools` yields them (lexicographic by index,
keeping the input order inside each tuple). -/
def combinations : List α → Nat → List (List α)
  | _, 0 => [[]]
  | [], _ + 1 => []
  | x :: xs, k + 1 => (combinations xs k).map (x :: ·) ++ combinations xs (k + 1)

/-- Embedding of `arena.make_team_features`: `reduce(numpy.add, features)`.
`functools.reduce` without an initial value raises on an empty team, which
is the `none` branch here. -/
def make_team_features (heroes : List Hero) : Option (List Rat) :=
  match heroes with
  | [] => none
  | h :: t => some ((t.map Hero.features).foldl vadd h.features)

/-- Team features with a default for the (unreachable in the call sites
below) empty team, used to write batch rows as a total map. -/
def teamFeaturesD (heroes : List Hero) : List Rat :=
  (make_team_features heroes).getD []

/-- Failure kinds of the selection core, following the error taxonomy of the
specification (the Python code raises built-in exceptions at the
corresponding program points). -/
inductive ArenaError where
  | emptyTeam
  | insufficientUnits
deriving DecidableEq, Repr

/-- First maximum of a list of scored candidates, by score: embedding of
`numpy.ndarray.argmax` (and of Python `max(..., key=itemgetter(1))`), both
of which return the first item attaining the maximum. -/
def argmaxBySnd : List (α × Rat) → Option (α × Rat)
  | [] => none
  | x :: xs => some (xs.foldl (fun best cur => if best.2 < cur.2 then cur else best) x)

/-- Embedding of `arena.model_select_attackers`.  The source enumerates all
`TEAM_SIZE`-combinations of the pool, scores the batch of differential
feature vectors with the estimator, and returns the first best candidate
with its probability.  With an empty defender team `reduce` raises
(`emptyTeam`); with fewer than `TEAM_SIZE` heroes the candidate batch is
empty and the code raises at the empty-batch point (`insufficientUnits`). -/
def model_select_attackers (predict : List Rat → Rat) (heroes defenders : List Hero) :
    Except ArenaError (List Hero × Rat) :=
  match make_team_features defenders with
  | none => .error .emptyTeam
  | some dv =>
    let scored := (combinations heroes TEAM_SIZE).map
      (fun attackers => (attackers, predict (vsub (teamFeaturesD attackers) dv)))
    match argmaxBySnd scored with
    | none => .error .insufficientUnits
    | some (attackers, p) => .ok (attackers, p)

/-- Loop state of `arena.model_select_grand_attackers`: the set of already
used hero identifiers (a Python `set`, modelled as a list with membership
semantics), the three attacker teams and the three per-slot probabilities. -/
structure OrderState where
  used : List String
  teams : List (List Hero)
  probs : List Rat
deriving Repr

/-- Initial loop state: `used_heroes = set()`, `attackers_teams = [[], [], []]`,
`probabilities = [0.0, 0.0, 0.0]`. -/
def initState : OrderState := ⟨[], [[], [], []], [0, 0, 0]⟩

/-- One iteration of the inner loop of `model_select_grand_attackers`:
filter out the used heroes, select attackers for slot `i`, record the team
and its probability, and mark its members as used. -/
def run_order_step (predict : List Rat → Rat) (heroes : List Hero)
    (dts : List (List Hero)) (st : OrderState) (i : Nat) : Except ArenaError OrderState :=
  let heroes_left := heroes.filter (fun h => decide (h.id ∉ st.used))
  match model_select_attackers predict heroes_left (dts.getD i []) with
  | .error e => .error e
  | .ok (attackers, p) =>
    .ok ⟨st.used ++ attackers.map Hero.id, st.teams.set i attackers, st.probs.set i p⟩

/-- Inner loop of `model_select_grand_attackers` over one slot ordering. -/
def run_order (predict : List Rat → Rat) (heroes : List Hero)
    (dts : List (List Hero)) : OrderState → List Nat → Except ArenaError OrderState
  | st, [] => .ok st
  | st, i :: rest =>
    match run_order_step predict heroes dts st i with
    | .error e => .error e
    | .ok st2 => run_order predict heroes dts st2 rest

/-- Embedding of `itertools.permutations(range(3))`, in the order
`itertools` yields the six orderings. -/
def all_orders : List (List Nat) :=
  [[0, 1, 2], [0, 2, 1], [1, 0, 2], [1, 2, 0], [2, 0, 1], [2, 1, 0]]

/-- Majority-win probability of three independent battles:
`p1*p2*p3 + p1*p2*(1-p3) + p2*p3*(1-p1) + p1*p3*(1-p2)`. -/
def majority (p1 p2 p3 : Rat) : Rat :=
  p1 * p2 * p3 + p1 * p2 * (1 - p3) + p2 * p3 * (1 - p1) + p1 * p3 * (1 - p2)

/-- Selection recorded for one slot ordering: the three attacker teams and
the majority-win probability computed from the three per-slot
probabilities. -/
def order_selection (predict : List Rat → Rat) (heroes : List Hero)
    (dts : List (List Hero)) (ord : List Nat) : Except ArenaError (List (List Hero) × Rat) :=
  match run_order predict heroes dts initState ord with
  | .error e => .error e
  | .ok st => .ok (st.teams, majority (st.probs.getD 0 0) (st.probs.getD 1 0) (st.probs.getD 2 0))

/-- Error-propagating map over a list (the Python `for` loop appending to
`selections`, where an exception in any iteration propagates out). -/
def mapE (f : α → Except ε β) : List α → Except ε (List β)
  | [] => .ok []
  | x :: xs =>
    match f x with
    | .error e => .error e
    | .ok y =>
      match mapE f xs with
      | .error e => .error e
      | .ok ys => .ok (y :: ys)

/-- Embedding of `arena.model_select_grand_attackers`: try the six slot
orderings, record each selection with its majority-win probability, and
return the first selection attaining the maximum probability.  The
`insufficientUnits` fallback of the final match is unreachable because the
list of recorded selections always has six entries. -/
def model_select_grand_attackers (predict : List Rat → Rat) (heroes : List Hero)
    (dts : List (List Hero)) : Except ArenaError (List (List Hero) × Rat) :=
  match mapE (order_selection predict heroes dts) all_orders with
  | .error e => .error e
  | .ok selections =>
    match argmaxBySnd selections with
    | none => .error .insufficientUnits
    | some (teams, p) => .ok (teams, p)

/-- Model score of slot `i` of a grand selection: the estimator applied to
the differential feature vector of the slot's attacker team against the
slot's defender team. -/
def slotScore (predict : List Rat → Rat) (dts : List (List Hero))
    (teams : List (List Hero)) (i : Nat) : Rat :=
  predict (vsub (teamFeaturesD (teams.getD i [])) (teamFeaturesD (dts.getD i [])))

/-- Value of `math.e` as an IEEE-754 double, the constant the source divides
by in `secretary_max` (`int(n / math.e)`). -/
def MATH_E : Rat := 6121026514868073 / 2251799813685248

/-- Embedding of `r = int(n / math.e) + 1` in `arena.secretary_max`
(`int` truncates toward zero, which is the floor for nonnegative `n`). -/
def secretary_r (n : Nat) : Nat := (⌊(n : Rat) / MATH_E⌋).toNat + 1

/-- Maximum key among the first `r - 1` (item, key) pairs, the value
`max_key` tracked by the skip phase of `arena.secretary_max`; `none` when
no item is skipped (the `default=(None, None)` branch). -/
def secretary_skip_max (pairs : List (α × K)) (r : Nat) [LinearOrder K] : Option K :=
  match (pairs.take (r - 1)).map Prod.snd with
  | [] => none
  | k :: ks => some (ks.foldl max k)

/-- Embedding of `arena.secretary_max`.  The iterator of (item, key) pairs
is the mapped list; the skip phase consumes the first `r - 1` pairs and
remembers the maximum key; the scan accepts the first later pair whose key
exceeds it (or any pair when nothing was skipped) and otherwise ends on the
last pair.  `none` collects the failure points of the source: the iterator
exhausting during the skip phase, and the scan loop never binding `item`
(in particular any empty input fails). -/
def secretary_max (items : List α) (n : Nat) (key : α → K) [LinearOrder K] :
    Option (α × K) :=
  let r := secretary_r n
  let pairs := items.map (fun it => (it, key it))
  if pairs.length < r - 1 then none
  else
    let max_key := secretary_skip_max pairs r
    let rest := pairs.drop (r - 1)
    match rest.find? (fun p =>
        match max_key with
        | none => true
        | some m => decide (m < p.2)) with
    | some p => some p
    | none => rest.getLast?

/-- Hero identifiers already used by the groups of a partial tuple
(`{item.id for sub_items in head for item in sub_items}`). -/
def usedIds (head : List (List Hero)) : List String :=
  head.flatMap (fun g => g.map Hero.id)

/-- Embedding of `arena.choose_multiple`: all ways to draw `n` successive
disjoint `k`-element groups from the pool, each later group a combination
of the items not used by the earlier groups of the same tuple. -/
def choose_multiple (items : List Hero) : Nat → Nat → List (List (List Hero))
  | 0, _ => [[]]
  | n + 1, k =>
    (choose_multiple items n k).flatMap (fun head =>
      (combinations (items.filter (fun it => decide (it.id ∉ usedIds head))) k).map
        (fun tail => head ++ [tail]))

/-- Power of a hero as the sort key of `naive_select_attackers`
(`attrgetter('power')`).  The source compares raw power values and would
raise on an absent power; the default is unreachable for the known-power
pools the specification talks about. -/
def heroPower (h : Hero) : Int := h.power.getD 0

/-- Descending-power comparison used to sort the heroes. -/
def powerDesc (a b : Hero) : Prop := heroPower b ≤ heroPower a

instance : DecidableRel powerDesc := fun a b => by
  unfold powerDesc; infer_instance

instance : IsTotal Hero powerDesc :=
  ⟨fun a b => le_total (heroPower b) (heroPower a)⟩

instance : IsTrans Hero powerDesc :=
  ⟨fun _ _ _ h1 h2 => le_trans h2 h1⟩

/-- Embedding of `arena.naive_select_attackers`: sort the heroes by
descending power (Python `sorted(..., reverse=True)`, a stable sort) and
keep the first `TEAM_SIZE` of them. -/
def naive_select_attackers (heroes : List Hero) : List Hero :=
  (List.insertionSort powerDesc heroes).take TEAM_SIZE

/-- Sample hero used by the concrete witnesses below. -/
def sampleHero (i : Nat) : Hero := ⟨toString i, 1, 1, 1, some 1, [(i : Rat)]⟩

/-- Sample fifteen-hero pool with pairwise-distinct identifiers. -/
def samplePool15 : List Hero := (List.range 15).map sampleHero

/-- Sample five-hero pool. -/
def samplePool5 : List Hero := (List.range 5).map sampleHero

/-- Sample four-hero pool. -/
def samplePool4 : List Hero := (List.range 4).map sampleHero

/-- Sample opposing team, disjoint from the sample pools. -/
def sampleFoes : List Hero := (List.range 5).map (fun i => sampleHero (100 + i))

/-- Sample opaque scoring function standing in for the estimator. -/
def samplePredict : List Rat → Rat := fun v => v.foldl (· + ·) 0

/-! ### Lemmas about `combinations` -/

theorem mem_combinations {c l : List α} {k : Nat} :
    c ∈ combinations l k ↔ c.Sublist l ∧ c.length = k := by
  induction l generalizing c k with
  | nil =>
    cases k with
    | zero =>
      simp only [combinations, List.mem_singleton]
      constructor
      · rintro rfl; exact ⟨List.Sublist.refl _, rfl⟩
      · rintro ⟨hs, _⟩; exact List.sublist_nil.mp hs
    | succ k =>
      simp only [combinations, List.not_mem_nil, false_iff]
      rintro ⟨hs, hlen⟩
      have : c = [] := List.sublist_nil.mp hs
      simp [this] at hlen
  | cons x xs ih =>
    cases k with
    | zero =>
      simp only [combinations, List.mem_singleton]
      constructor
      · rintro rfl; exact ⟨List.nil_sublist _, rfl⟩
      · rintro ⟨_, hlen⟩; exact List.length_eq_zero.mp hlen
    | succ k =>
      simp only [combinations, List.mem_append, List.mem_map, ih]
      constructor
      · rintro (⟨c', ⟨hs, hlen⟩, rfl⟩ | ⟨hs, hlen⟩)
        · exact ⟨List.cons_sublist_cons.mpr hs, by simp [hlen]⟩
        · exact ⟨hs.cons x, hlen⟩
      · rintro ⟨hs, hlen⟩
        rcases List.sublist_cons_iff.mp hs with h | ⟨r, rfl, hr⟩
        · exact Or.inr ⟨h, hlen⟩
        · exact Or.inl ⟨r, ⟨hr, by simpa using hlen⟩, rfl⟩

theorem combinations_eq_nil {l : List α} {k : Nat} (h : l.length < k) :
    combinations l k = [] := by
  rcases hc : combinations l k with _ | ⟨c, cs⟩
  · rfl
  · have hm : c ∈ combinations l k := by rw [hc]; exact List.mem_cons_self _ _
    rcases mem_combinations.mp hm with ⟨hs, hlen⟩
    have := hs.length_le
    omega

theorem combinations_self {l : List α} : combinations l l.length = [l] := by
  induction l with
  | nil => rfl
  | cons x xs ih =>
    have h2 : combinations xs (xs.length + 1) = [] :=
      combinations_eq_nil (Nat.lt_succ_self _)
    simp [combinations, ih, h2]

theorem length_combinations {l : List α} {k : Nat} :
    (combinations l k).length = l.length.choose k := by
  induction l generalizing k with
  | nil => cases k <;> simp [combinations]
  | cons x xs ih =>
    cases k with
    | zero => simp [combinations]
    | succ k => simp [combinations, ih, Nat.choose_succ_succ, Nat.add_comm]

theorem nodup_combinations {l : List α} {k : Nat} (h : l.Nodup) :
    (combinations l k).Nodup := by
  induction l generalizing k with
  | nil => cases k <;> simp [combinations]
  | cons x xs ih =>
    rcases List.nodup_cons.mp h with ⟨hx, hxs⟩
    cases k with
    | zero => simp [combinations]
    | succ k =>
      simp only [combinations]
      refine List.Nodup.append ((ih hxs).map ?_ ) (ih hxs) ?_
      · intro a b hab
        simpa using hab
      · intro c hc1 hc2
        rcases List.mem_map.mp hc1 with ⟨c', _, rfl⟩
        rcases mem_combinations.mp hc2 with ⟨hs, _⟩
        exact hx (hs.subset (List.mem_cons_self x c'))

/-! ### Lemmas about `argmaxBySnd` and `model_select_attackers` -/

theorem argmaxBySnd_mem {l : List (α × Rat)} {x : α × Rat}
    (h : argmaxBySnd l = some x) : x ∈ l := by
  rcases l with _ | ⟨y, ys⟩
  · simp [argmaxBySnd] at h
  · simp only [argmaxBySnd, Option.some.injEq] at h
    subst h
    suffices h : ∀ (ys : List (α × Rat)) (y : α × Rat),
        ys.foldl (fun best cur => if best.2 < cur.2 then cur else best) y ∈ y :: ys by
      exact h ys y
    intro ys
    induction ys with
    | nil => intro y; simp
    | cons z zs ih =>
      intro y
      simp only [List.foldl_cons]
      rcases List.mem_cons.mp (ih (if y.2 < z.2 then z else y)) with h | h
      · rw [h]
        by_cases hc : y.2 < z.2 <;> simp [hc]
      · exact List.mem_cons_of_mem _ (List.mem_cons_of_mem _ h)

theorem model_select_attackers_ok {predict : List Rat → Rat}
    {heroes defenders : List Hero} {a : List Hero} {p : Rat}
    (h : model_select_attackers predict heroes defenders = .ok (a, p)) :
    a ∈ combinations heroes TEAM_SIZE ∧
      p = predict (vsub (teamFeaturesD a) (teamFeaturesD defenders)) := by
  rcases hd : make_team_features defenders with _ | dv
  · simp [model_select_attackers, hd] at h
  · simp only [model_select_attackers, hd] at h
    split at h
    · exact absurd h (by simp)
    · rename_i a' p' heq
      simp only [Except.ok.injEq, Prod.mk.injEq] at h
      rcases h with ⟨rfl, rfl⟩
      have hm := argmaxBySnd_mem heq
      rcases List.mem_map.mp hm with ⟨c, hc, hceq⟩
      simp only [Prod.mk.injEq] at hceq
      rcases hceq with ⟨rfl, rfl⟩
      refine ⟨hc, ?_⟩
      simp [teamFeaturesD, hd]

/-- Claim C4: with a pool of exactly `TEAM_SIZE` heroes (and a well-formed,
nonempty defender team), `model_select_attackers` returns exactly that pool,
with the estimator's score of the single differential feature vector. -/
theorem c4_full_pool_selection {predict : List Rat → Rat} {heroes defenders : List Hero}
    (hlen : heroes.length = TEAM_SIZE) (hd : defenders ≠ []) :
    model_select_attackers predict heroes defenders =
      .ok (heroes, predict (vsub (teamFeaturesD heroes) (teamFeaturesD defenders))) := by
  have hcomb : combinations heroes TEAM_SIZE = [heroes] := by
    rw [← hlen]; exact combinations_self
  rcases hdv : make_team_features defenders with _ | dv
  · rcases defenders with _ | ⟨d, ds⟩
    · exact absurd rfl hd
    · simp [make_team_features] at hdv
  · unfold model_select_attackers
    rw [hdv, hcomb]
    simp [argmaxBySnd, teamFeaturesD, hdv]

/-- Witness for claim C4 at a concrete five-hero pool. -/
theorem c4_full_pool_selection_witness :
    samplePool5.length = TEAM_SIZE ∧ sampleFoes ≠ [] ∧
      model_select_attackers samplePredict samplePool5 sampleFoes =
        .ok (samplePool5,
          samplePredict (vsub (teamFeaturesD samplePool5) (teamFeaturesD sampleFoes))) :=
  ⟨by decide, by decide, c4_full_pool_selection (by decide) (by decide)⟩

/-- Claim C5: with fewer than `TEAM_SIZE` heroes in the pool (and a
nonempty defender team), `model_select_attackers` fails: the candidate
batch is empty, which is the `insufficientUnits` failure. -/
theorem c5_small_pool_fails {predict : List Rat → Rat} {heroes defenders : List Hero}
    (hlen : heroes.length < TEAM_SIZE) (hd : defenders ≠ []) :
    model_select_attackers predict heroes defenders = .error .insufficientUnits := by
  have hcomb : combinations heroes TEAM_SIZE = [] := combinations_eq_nil hlen
  rcases hdv : make_team_features defenders with _ | dv
  · rcases defenders with _ | ⟨d, ds⟩
    · exact absurd rfl hd
    · simp [make_team_features] at hdv
  · unfold model_select_attackers
    rw [hdv, hcomb]
    simp [argmaxBySnd]

/-- Witness for claim C5 at a concrete four-hero pool. -/
theorem c5_small_pool_fails_witness :
    samplePool4.length < TEAM_SIZE ∧ sampleFoes ≠ [] ∧
      model_select_attackers samplePredict samplePool4 sampleFoes =
        .error .insufficientUnits :=
  ⟨by decide, by decide, c5_small_pool_fails (by decide) (by decide)⟩

/-! ### Permutation invariance of team features (claim C7) -/

theorem vadd_comm (a b : List Rat) : vadd a b = vadd b a := by
  unfold vadd
  induction a generalizing b with
  | nil => cases b <;> rfl
  | cons x xs ih =>
    cases b with
    | nil => rfl
    | cons y ys => simp [List.zipWith, ih, add_comm]

theorem vadd_assoc (a b c : List Rat) : vadd (vadd a b) c = vadd a (vadd b c) := by
  unfold vadd
  induction a generalizing b c with
  | nil => rfl
  | cons x xs ih =>
    cases b with
    | nil => rfl
    | cons y ys =>
      cases c with
      | nil => rfl
      | cons z zs => simp [List.zipWith, ih, add_assoc]

theorem foldl_vadd_perm {l₁ l₂ : List (List Rat)} (h : l₁.Perm l₂) :
    ∀ b, l₁.foldl vadd b = l₂.foldl vadd b := by
  induction h with
  | nil => intro b; rfl
  | cons x _ ih => intro b; simp only [List.foldl_cons]; exact ih _
  | swap x y l =>
    intro b
    simp only [List.foldl_cons]
    rw [vadd_assoc, vadd_assoc, vadd_comm y x]
  | trans _ _ ih1 ih2 => intro b; rw [ih1, ih2]

/-- Claim C7: team feature aggregation never depends on the order of the
team members; on a nonempty team it yields an actual vector. -/
theorem c7_team_features_perm_invariant {l₁ l₂ : List Hero}
    (h : l₁.Perm l₂) (hne : l₁ ≠ []) :
    (make_team_features l₁).isSome ∧ make_team_features l₁ = make_team_features l₂ := by
  refine ⟨?_, ?_⟩
  · rcases l₁ with _ | ⟨x, xs⟩
    · exact absurd rfl hne
    · simp [make_team_features]
  · clear hne
    induction h with
    | nil => rfl
    | cons x h ih =>
      simp only [make_team_features, List.map_cons, Option.some.injEq]
      exact foldl_vadd_perm (h.map Hero.features) _
    | swap x y l =>
      simp only [make_team_features, List.map_cons, List.foldl_cons, Option.some.injEq]
      rw [vadd_comm]
    | trans _ _ ih1 ih2 => rw [ih1, ih2]

/-- Witness for claim C7 on a concrete reordered pair of teams. -/
theorem c7_team_features_perm_invariant_witness :
    [sampleHero 0, sampleHero 1, sampleHero 2].Perm
        [sampleHero 2, sampleHero 0, sampleHero 1] ∧
      [sampleHero 0, sampleHero 1, sampleHero 2] ≠ [] ∧
      ((make_team_features [sampleHero 0, sampleHero 1, sampleHero 2]).isSome ∧
        make_team_features [sampleHero 0, sampleHero 1, sampleHero 2] =
          make_team_features [sampleHero 2, sampleHero 0, sampleHero 1]) :=
  ⟨by decide, by decide, c7_team_features_perm_invariant (by decide) (by decide)⟩

/-! ### Optimal-stopping selection (claims C3, C8, C10) -/

/-- Claim C8: `secretary_max` over a sequence that yields no items fails
(the source either exhausts the iterator inside the skip phase or reaches
the return with the loop variable unbound; both are the `none` branch). -/
theorem c8_secretary_empty_fails [LinearOrder K] (n : Nat) (key : α → K) :
    secretary_max ([] : List α) n key = none := by
  simp [secretary_max]

theorem secretary_r_ten : secretary_r 10 = 4 := by
  unfold secretary_r MATH_E
  norm_num
  rfl

/-- Claim C3: on the deterministic input `[1, ..., 10]` with
`expected_count = 10` and the identity key, the stopping rule uses
`r = 4`, the skip phase tracks the maximum key `3` of the first three
items, and the first later item exceeding it, namely `4`, is returned. -/
theorem c3_secretary_ten :
    secretary_r 10 = 4 ∧
      secretary_skip_max
        (([1, 2, 3, 4, 5, 6, 7, 8, 9, 10] : List Nat).map (fun it => (it, it)))
        (secretary_r 10) = some 3 ∧
      secretary_max ([1, 2, 3, 4, 5, 6, 7, 8, 9, 10] : List Nat) 10 (fun it => it) =
        some (4, 4) :=
  ⟨secretary_r_ten,
    by simp only [secretary_r_ten]; decide,
    by simp only [secretary_max, secretary_r_ten]; decide⟩

theorem secretary_r_of_le_two {n : Nat} (h : n ≤ 2) : secretary_r n = 1 := by
  interval_cases n <;> (unfold secretary_r MATH_E; norm_num)

/-- Claim C10: with `expected_count` at most 2 the skip phase is empty, no
maximum is tracked, and the first item of any nonempty sequence is
accepted immediately. -/
theorem c10_small_count_returns_first [LinearOrder K] {n : Nat} (key : α → K)
    (h : n ≤ 2) (x : α) (xs : List α) :
    secretary_max (x :: xs) n key = some (x, key x) := by
  have hr : secretary_r n = 1 := secretary_r_of_le_two h
  unfold secretary_max
  rw [hr]
  simp [secretary_skip_max, List.find?]

/-- Witness for claim C10 at `expected_count = 2` and the sequence `[7, 5]`. -/
theorem c10_small_count_returns_first_witness :
    (2 : Nat) ≤ 2 ∧ secretary_max ([7, 5] : List Nat) 2 (fun it => it) = some (7, 7) :=
  ⟨by decide, c10_small_count_returns_first (fun it => it) (by decide) 7 [5]⟩

/-! ### The grand-arena allocator (claims C1, C2) -/

theorem getD_set_self {l : List α} {i : Nat} {a d : α} (h : i < l.length) :
    (l.set i a).getD i d = a := by
  simp [List.getD_eq_getElem?_getD, List.getElem?_set_self (by simpa using h)]

theorem getD_set_ne {l : List α} {i j : Nat} (h : i ≠ j) {a d : α} :
    (l.set i a).getD j d = l.getD j d := by
  simp [List.getD_eq_getElem?_getD, List.getElem?_set_ne h]

/-- Invariant carried through the slot-processing loop of
`model_select_grand_attackers`: for every slot already processed, the
recorded probability is the estimator score of the recorded team against
that slot's defenders, the identifiers of the recorded team members have
been marked used, and distinct processed slots never share an
identifier. -/
structure OrderInv (predict : List Rat → Rat) (dts : List (List Hero))
    (done : List Nat) (st : OrderState) : Prop where
  teams_len : st.teams.length = 3
  probs_len : st.probs.length = 3
  prob_eq : ∀ i ∈ done, st.probs.getD i 0 = slotScore predict dts st.teams i
  used_mem : ∀ i ∈ done, ∀ h ∈ st.teams.getD i [], h.id ∈ st.used
  disj : ∀ i ∈ done, ∀ j ∈ done, i ≠ j →
    ∀ h1 ∈ st.teams.getD i [], ∀ h2 ∈ st.teams.getD j [], h1.id ≠ h2.id

theorem orderInv_init (predict : List Rat → Rat) (dts : List (List Hero)) :
    OrderInv predict dts [] initState :=
  ⟨rfl, rfl, by simp, by simp, by simp⟩

theorem run_order_step_inv {predict : List Rat → Rat} {heroes : List Hero}
    {dts : List (List Hero)} {done : List Nat} {st st' : OrderState} {i : Nat}
    (hi : i < 3) (hnew : i ∉ done) (hinv : OrderInv predict dts done st)
    (hstep : run_order_step predict heroes dts st i = .ok st') :
    OrderInv predict dts (i :: done) st' := by
  simp only [run_order_step] at hstep
  split at hstep
  · exact absurd hstep (by simp)
  · rename_i attackers p heq
    simp only [Except.ok.injEq] at hstep
    subst hstep
    rcases model_select_attackers_ok heq with ⟨hmem, hp⟩
    have hsub : attackers.Sublist (heroes.filter (fun h => decide (h.id ∉ st.used))) :=
      (mem_combinations.mp hmem).1
    have hfresh : ∀ h ∈ attackers, h.id ∉ st.used := by
      intro h hh
      have hmf := hsub.subset hh
      simpa using (List.mem_filter.mp hmf).2
    have hTlen := hinv.teams_len
    have hPlen := hinv.probs_len
    have memOf : ∀ j, j ∈ (i :: done) → j ≠ i → j ∈ done := by
      intro j hj hne
      rcases List.mem_cons.mp hj with h' | h'
      · exact absurd h' hne
      · exact h'
    constructor
    · dsimp only
      simpa [List.length_set] using hTlen
    · dsimp only
      simpa [List.length_set] using hPlen
    · intro j hj
      dsimp only
      by_cases hji : j = i
      · subst hji
        rw [getD_set_self (hPlen ▸ hi), hp]
        simp only [slotScore]
        rw [getD_set_self (hTlen ▸ hi)]
      · have hne : i ≠ j := fun h' => hji h'.symm
        rw [getD_set_ne hne]
        simp only [slotScore]
        rw [getD_set_ne hne]
        simpa [slotScore] using hinv.prob_eq j (memOf j hj hji)
    · intro j hj h hh
      dsimp only at hh ⊢
      by_cases hji : j = i
      · subst hji
        rw [getD_set_self (hTlen ▸ hi)] at hh
        exact List.mem_append_right _ (List.mem_map_of_mem Hero.id hh)
      · rw [getD_set_ne (fun h' => hji h'.symm)] at hh
        exact List.mem_append_left _ (hinv.used_mem j (memOf j hj hji) h hh)
    · intro j hj k hk hjk h1 hm1 h2 hm2
      dsimp only at hm1 hm2
      by_cases hji : j = i
      · subst hji
        have hki : k ≠ j := fun h' => hjk h'.symm
        rw [getD_set_self (hTlen ▸ hi)] at hm1
        rw [getD_set_ne (fun h' => hki h'.symm)] at hm2
        intro hid
        exact hfresh h1 hm1 (hid ▸ hinv.used_mem k (memOf k hk hki) h2 hm2)
      · by_cases hki : k = i
        · subst hki
          rw [getD_set_self (hTlen ▸ hi)] at hm2
          rw [getD_set_ne (fun h' => hji h'.symm)] at hm1
          intro hid
          exact hfresh h2 hm2 (hid ▸ hinv.used_mem j (memOf j hj hji) h1 hm1)
        · rw [getD_set_ne (fun h' => hji h'.symm)] at hm1
          rw [getD_set_ne (fun h' => hki h'.symm)] at hm2
          exact hinv.disj j (memOf j hj hji) k (memOf k hk hki) hjk h1 hm1 h2 hm2

theorem run_order_inv {predict : List Rat → Rat} {heroes : List Hero}
    {dts : List (List Hero)} :
    ∀ (ord done : List Nat) (st st' : OrderState),
      (∀ i ∈ ord, i < 3) → (∀ i ∈ ord, i ∉ done) → ord.Nodup →
      OrderInv predict dts done st →
      run_order predict heroes dts st ord = .ok st' →
      OrderInv predict dts (ord.reverseAux done) st' := by
  intro ord
  induction ord with
  | nil =>
    intro done st st' _ _ _ hinv hrun
    simp only [run_order, Except.ok.injEq] at hrun
    exact hrun ▸ hinv
  | cons i rest ih =>
    intro done st st' hlt hnd hnodup hinv hrun
    simp only [run_order] at hrun
    split at hrun
    · exact absurd hrun (by simp)
    · rename_i st2 heq
      have hstep := run_order_step_inv (hlt i (List.mem_cons_self i rest))
        (hnd i (List.mem_cons_self i rest)) hinv heq
      rcases List.nodup_cons.mp hnodup with ⟨hirest, hnodup'⟩
      refine ih (i :: done) st2 st'
        (fun j hj => hlt j (List.mem_cons_of_mem i hj))
        (fun j hj hmem => ?_) hnodup' hstep hrun
      rcases List.mem_cons.mp hmem with rfl | hmem'
      · exact hirest hj
      · exact hnd j (List.mem_cons_of_mem i hj) hmem'

theorem run_order_all {predict : List Rat → Rat} {heroes : List Hero}
    {dts : List (List Hero)} {ord : List Nat} {st : OrderState}
    (hord : ord ∈ all_orders)
    (hrun : run_order predict heroes dts initState ord = .ok st) :
    (∀ i < 3, st.probs.getD i 0 = slotScore predict dts st.teams i) ∧
      st.teams.length = 3 ∧
      (∀ i < 3, ∀ j < 3, i ≠ j →
        ∀ h1 ∈ st.teams.getD i [], ∀ h2 ∈ st.teams.getD j [], h1.id ≠ h2.id) := by
  have hlt : ∀ i ∈ ord, i < 3 := by
    fin_cases hord <;> decide
  have hnodup : ord.Nodup := by
    fin_cases hord <;> decide
  have hcover : ∀ i < 3, i ∈ ord := by
    fin_cases hord <;> decide
  have hinv := run_order_inv ord [] initState st hlt (by simp) hnodup
    (orderInv_init predict dts) hrun
  have hmem : ∀ i < 3, i ∈ ord.reverseAux [] := by
    intro i hi
    simpa using hcover i hi
  exact ⟨fun i hi => hinv.prob_eq i (hmem i hi), hinv.teams_len,
    fun i hi j hj hij => hinv.disj i (hmem i hi) j (hmem j hj) hij⟩

theorem mapE_ok_mem {f : α → Except ε β} {l : List α} {ys : List β}
    (h : mapE f l = .ok ys) : ∀ y ∈ ys, ∃ x ∈ l, f x = .ok y := by
  induction l generalizing ys with
  | nil =>
    simp only [mapE, Except.ok.injEq] at h
    subst h
    simp
  | cons x xs ih =>
    simp only [mapE] at h
    split at h
    · exact absurd h (by simp)
    · rename_i y0 heq
      split at h
      · exact absurd h (by simp)
      · rename_i ys0 heq0
        simp only [Except.ok.injEq] at h
        subst h
        intro y hy
        rcases List.mem_cons.mp hy with rfl | hy'
        · exact ⟨x, List.mem_cons_self x xs, heq⟩
        · rcases ih heq0 y hy' with ⟨x', hx', hfx'⟩
          exact ⟨x', List.mem_cons_of_mem x hx', hfx'⟩

theorem model_select_grand_attackers_ok {predict : List Rat → Rat}
    {heroes : List Hero} {dts : List (List Hero)} {ts : List (List Hero)} {p : Rat}
    (h : model_select_grand_attackers predict heroes dts = .ok (ts, p)) :
    ∃ ord ∈ all_orders, ∃ st,
      run_order predict heroes dts initState ord = .ok st ∧ ts = st.teams ∧
      p = majority (st.probs.getD 0 0) (st.probs.getD 1 0) (st.probs.getD 2 0) := by
  simp only [model_select_grand_attackers] at h
  split at h
  · exact absurd h (by simp)
  · rename_i sels hsels
    split at h
    · exact absurd h (by simp)
    · rename_i ts' p' harg
      simp only [Except.ok.injEq, Prod.mk.injEq] at h
      rcases h with ⟨rfl, rfl⟩
      have hmem := argmaxBySnd_mem harg
      rcases mapE_ok_mem hsels _ hmem with ⟨ord, hord, hsel⟩
      simp only [order_selection] at hsel
      split at hsel
      · exact absurd hsel (by simp)
      · rename_i st hst
        simp only [Except.ok.injEq, Prod.mk.injEq] at hsel
        exact ⟨ord, hord, st, hst, hsel.1.symm, hsel.2.symm⟩

/-- Pairwise identifier-disjointness of a list of teams. -/
def TeamsDisjoint (ts : List (List Hero)) : Prop :=
  ts.Pairwise (fun g1 g2 => ∀ h1 ∈ g1, ∀ h2 ∈ g2, h1.id ≠ h2.id)

/-- Every successful result of the allocator has pairwise
identifier-disjoint attacker teams. -/
def GrandDisjoint (predict : List Rat → Rat) (heroes : List Hero)
    (dts : List (List Hero)) : Prop :=
  ∀ ts p, model_select_grand_attackers predict heroes dts = .ok (ts, p) → TeamsDisjoint ts

/-- For each ordering the allocator tries, the recorded selection pairs the
three teams with the majority formula of the three per-slot probabilities,
and each per-slot probability is the estimator score of the slot's team. -/
def GrandPerOrderConsistent (predict : List Rat → Rat) (heroes : List Hero)
    (dts : List (List Hero)) : Prop :=
  ∀ ord ∈ all_orders, ∀ st, run_order predict heroes dts initState ord = .ok st →
    order_selection predict heroes dts ord =
      .ok (st.teams,
        majority (st.probs.getD 0 0) (st.probs.getD 1 0) (st.probs.getD 2 0)) ∧
    ∀ i < 3, st.probs.getD i 0 = slotScore predict dts st.teams i

/-- The returned joint probability is reproducible from the returned
selection's own three per-slot scores via the majority formula. -/
def GrandReproducible (predict : List Rat → Rat) (heroes : List Hero)
    (dts : List (List Hero)) : Prop :=
  ∀ ts p, model_select_grand_attackers predict heroes dts = .ok (ts, p) →
    p = majority (slotScore predict dts ts 0) (slotScore predict dts ts 1)
      (slotScore predict dts ts 2)

/-- Claim C1: for every invocation of the allocator and each of the six
orderings it tries, the recorded joint probability is the majority formula
of that ordering's three per-slot probabilities, and the returned joint
probability is reproducible from the returned selection's per-slot scores
via the same formula. -/
theorem c1_grand_majority_formula (predict : List Rat → Rat) (heroes : List Hero)
    (dts : List (List Hero)) :
    GrandPerOrderConsistent predict heroes dts ∧ GrandReproducible predict heroes dts := by
  constructor
  · intro ord hord st hst
    exact ⟨by simp [order_selection, hst], (run_order_all hord hst).1⟩
  · intro ts p h
    rcases model_select_grand_attackers_ok h with ⟨ord, hord, st, hst, rfl, rfl⟩
    have hpe := (run_order_all hord hst).1
    rw [hpe 0 (by norm_num), hpe 1 (by norm_num), hpe 2 (by norm_num)]

/-- Claim C2: over a pool of heroes with pairwise-distinct identifiers,
the three attacker teams of any successful allocation are pairwise
disjoint by hero identifier. -/
theorem c2_grand_teams_disjoint (predict : List Rat → Rat) (heroes : List Hero)
    (dts : List (List Hero)) (hids : (heroes.map Hero.id).Nodup) :
    GrandDisjoint predict heroes dts := by
  intro ts p h
  rcases model_select_grand_attackers_ok h with ⟨ord, hord, st, hst, rfl, -⟩
  rcases run_order_all hord hst with ⟨-, hlen3, hdisj⟩
  rcases List.length_eq_three.mp hlen3 with ⟨t0, t1, t2, heq⟩
  have d01 := hdisj 0 (by norm_num) 1 (by norm_num) (by norm_num)
  have d02 := hdisj 0 (by norm_num) 2 (by norm_num) (by norm_num)
  have d12 := hdisj 1 (by norm_num) 2 (by norm_num) (by norm_num)
  rw [heq] at d01 d02 d12 ⊢
  refine List.pairwise_cons.mpr ⟨?_, List.pairwise_cons.mpr
    ⟨?_, List.pairwise_singleton _ _⟩⟩
  · intro g hg
    rcases List.mem_cons.mp hg with rfl | hg'
    · exact d01
    · rcases List.mem_cons.mp hg' with rfl | hg''
      · exact d02
      · simp at hg''
  · intro g hg
    rcases List.mem_cons.mp hg with rfl | hg'
    · exact d12
    · simp at hg'

/-- Witness for claim C2 over a concrete fifteen-hero pool. -/
theorem c2_grand_teams_disjoint_witness :
    (samplePool15.map Hero.id).Nodup ∧
      GrandDisjoint samplePredict samplePool15
        [[sampleHero 100], [sampleHero 101], [sampleHero 102]] :=
  ⟨by decide, c2_grand_teams_disjoint _ _ _ (by decide)⟩

/-! ### Naive selection (claim C9) -/

/-- Claim C9: on a pool of fewer than `TEAM_SIZE` heroes that all carry a
known power, `naive_select_attackers` returns all of them sorted by
descending power; the function is total, so no error is raised. -/
theorem c9_naive_small_pool (heroes : List Hero)
    (hlen : heroes.length < TEAM_SIZE)
    (hknown : ∀ h ∈ heroes, h.power.isSome) :
    (naive_select_attackers heroes).Perm heroes ∧
      (naive_select_attackers heroes).Pairwise powerDesc := by
  have hperm : (List.insertionSort powerDesc heroes).Perm heroes :=
    List.perm_insertionSort powerDesc heroes
  have hlen2 : (List.insertionSort powerDesc heroes).length ≤ TEAM_SIZE := by
    rw [hperm.length_eq]
    omega
  unfold naive_select_attackers
  rw [List.take_of_length_le hlen2]
  exact ⟨hperm, List.sorted_insertionSort powerDesc heroes⟩

/-- Witness for claim C9 on a concrete three-hero pool. -/
theorem c9_naive_small_pool_witness :
    [sampleHero 0, sampleHero 1, sampleHero 2].length < TEAM_SIZE ∧
      (∀ h ∈ [sampleHero 0, sampleHero 1, sampleHero 2], h.power.isSome) ∧
      ((naive_select_attackers [sampleHero 0, sampleHero 1, sampleHero 2]).Perm
          [sampleHero 0, sampleHero 1, sampleHero 2] ∧
        (naive_select_attackers [sampleHero 0, sampleHero 1, sampleHero 2]).Pairwise
          powerDesc) :=
  ⟨by decide, by decide, c9_naive_small_pool _ (by decide) (by decide)⟩

/-! ### The disjoint-group enumerator (claim C6) -/

/-- Shape of the tuples enumerated by `choose_multiple`: `n` groups, each a
`k`-element combination of the pool (a subsequence, since a combination
keeps the pool order), pairwise disjoint by hero identifier. -/
def ValidGroupTuple (pool : List Hero) (n k : Nat) (ts : List (List Hero)) : Prop :=
  ts.length = n ∧ (∀ g ∈ ts, g.Sublist pool ∧ g.length = k) ∧ TeamsDisjoint ts

theorem choose_multiple_sound {pool : List Hero} :
    ∀ {n k : Nat} {ts : List (List Hero)}, ts ∈ choose_multiple pool n k →
      ValidGroupTuple pool n k ts := by
  intro n
  induction n with
  | zero =>
    intro k ts hts
    simp only [choose_multiple, List.mem_singleton] at hts
    subst hts
    exact ⟨rfl, by simp, List.Pairwise.nil⟩
  | succ n ih =>
    intro k ts hts
    simp only [choose_multiple, List.mem_flatMap, List.mem_map] at hts
    rcases hts with ⟨head, hhead, tail, htail, rfl⟩
    rcases ih hhead with ⟨hlen, hgroups, hdisj⟩
    rcases mem_combinations.mp htail with ⟨hsubf, htlen⟩
    have htailpool : tail.Sublist pool := hsubf.trans (List.filter_sublist _)
    have htailfresh : ∀ h ∈ tail, h.id ∉ usedIds head := by
      intro h hh
      have hmf := hsubf.subset hh
      simpa using (List.mem_filter.mp hmf).2
    refine ⟨by simp [hlen], ?_, ?_⟩
    · intro g hg
      rcases List.mem_append.mp hg with hg' | hg'
      · exact hgroups g hg'
      · rcases List.mem_singleton.mp hg' with rfl
        exact ⟨htailpool, htlen⟩
    · refine List.pairwise_append.mpr ⟨hdisj, List.pairwise_singleton _ _, ?_⟩
      intro g hg t ht
      rcases List.mem_singleton.mp ht with rfl
      intro h1 hm1 h2 hm2 hid
      refine htailfresh h2 hm2 ?_
      simp only [usedIds, List.mem_flatMap]
      exact ⟨g, hg, by simpa [hid] using List.mem_map_of_mem Hero.id hm1⟩

theorem choose_multiple_complete {pool : List Hero} :
    ∀ {n k : Nat} {ts : List (List Hero)}, ValidGroupTuple pool n k ts →
      ts ∈ choose_multiple pool n k := by
  intro n
  induction n with
  | zero =>
    intro k ts hv
    obtain ⟨hlen, -, -⟩ := hv
    simp only [choose_multiple, List.mem_singleton]
    exact List.length_eq_zero.mp hlen
  | succ n ih =>
    intro k ts hv
    obtain ⟨hlen, hgroups, hdisj⟩ := hv
    have hne : ts ≠ [] := by
      intro h
      rw [h] at hlen
      simp at hlen
    obtain ⟨head, tail, rfl⟩ : ∃ head tail, ts = head ++ [tail] :=
      ⟨ts.dropLast, ts.getLast hne, (List.dropLast_append_getLast hne).symm⟩
    have hheadlen : head.length = n := by
      simp only [List.length_append, List.length_singleton] at hlen
      omega
    have hheadmem : head ∈ choose_multiple pool n k := by
      refine ih ⟨hheadlen, ?_, ?_⟩
      · intro g hg
        exact hgroups g (List.mem_append_left _ hg)
      · exact List.Pairwise.sublist (List.sublist_append_left head [tail]) hdisj
    rcases hgroups tail (List.mem_append_right _ (List.mem_singleton_self _))
      with ⟨htpool, htlen⟩
    have hfresh : ∀ h ∈ tail, h.id ∉ usedIds head := by
      intro h hh hused
      simp only [usedIds, List.mem_flatMap, List.mem_map] at hused
      rcases hused with ⟨g, hg, h1, hm1, hid⟩
      have hrel := (List.pairwise_append.mp hdisj).2.2 g hg tail (List.mem_singleton_self _)
      exact hrel h1 hm1 h hh hid
    have hsubf : tail.Sublist (pool.filter (fun it => decide (it.id ∉ usedIds head))) := by
      have hfe : tail.filter (fun it => decide (it.id ∉ usedIds head)) = tail :=
        List.filter_eq_self.mpr (by intro a ha; simpa using hfresh a ha)
      have hs := htpool.filter (fun it => decide (it.id ∉ usedIds head))
      rw [hfe] at hs
      exact hs
    simp only [choose_multiple, List.mem_flatMap, List.mem_map]
    exact ⟨head, hheadmem, tail, mem_combinations.mpr ⟨hsubf, htlen⟩, rfl⟩

theorem choose_multiple_nodup {pool : List Hero} (hids : (pool.map Hero.id).Nodup) :
    ∀ n k, (choose_multiple pool n k).Nodup := by
  have hpool : pool.Nodup := hids.of_map
  intro n
  induction n with
  | zero => intro k; simp [choose_multiple]
  | succ n ih =>
    intro k
    simp only [choose_multiple]
    rw [List.nodup_flatMap]
    refine ⟨?_, ?_⟩
    · intro head _
      refine List.Nodup.map ?_ (nodup_combinations (hpool.filter _))
      intro t1 t2 h12
      simpa using List.append_cancel_left h12
    · refine List.Pairwise.imp_of_mem ?_ (ih k)
      intro a b ha hb hab
      intro x hxa hxb
      simp only [List.mem_map] at hxa hxb
      rcases hxa with ⟨t1, -, rfl⟩
      rcases hxb with ⟨t2, -, heq⟩
      have hlena : a.length = n := (choose_multiple_sound ha).1
      have hlenb : b.length = n := (choose_multiple_sound hb).1
      exact hab (List.append_inj heq.symm (by rw [hlena, hlenb])).1

theorem usedIds_length {pool : List Hero} {n k : Nat} {ts : List (List Hero)}
    (hv : ValidGroupTuple pool n k ts) : (usedIds ts).length = n * k := by
  obtain ⟨hlen, hgroups, -⟩ := hv
  simp only [usedIds]
  rw [List.length_flatMap]
  have hmap : ts.map (List.length ∘ fun g => g.map Hero.id) = ts.map (fun _ => k) := by
    apply List.map_congr_left
    intro g hg
    simp [(hgroups g hg).2]
  rw [hmap, List.map_const', List.sum_const_nat, hlen]

theorem usedIds_nodup {pool : List Hero} (hids : (pool.map Hero.id).Nodup)
    {n k : Nat} {ts : List (List Hero)} (hv : ValidGroupTuple pool n k ts) :
    (usedIds ts).Nodup := by
  obtain ⟨-, hgroups, hdisj⟩ := hv
  simp only [usedIds]
  rw [List.nodup_flatMap]
  constructor
  · intro g hg
    exact List.Nodup.sublist (((hgroups g hg).1).map Hero.id) hids
  · refine List.Pairwise.imp ?_ hdisj
    intro g1 g2 hrel
    intro x hx1 hx2
    simp only [List.mem_map] at hx1 hx2
    rcases hx1 with ⟨h1, hm1, rfl⟩
    rcases hx2 with ⟨h2, hm2, hid⟩
    exact hrel h1 hm1 h2 hm2 hid.symm

theorem usedIds_subset {pool : List Hero} {n k : Nat} {ts : List (List Hero)}
    (hv : ValidGroupTuple pool n k ts) :
    ∀ x ∈ usedIds ts, x ∈ pool.map Hero.id := by
  obtain ⟨-, hgroups, -⟩ := hv
  intro x hx
  simp only [usedIds, List.mem_flatMap, List.mem_map] at hx
  rcases hx with ⟨g, hg, h, hm, rfl⟩
  exact List.mem_map_of_mem Hero.id (((hgroups g hg).1).subset hm)

theorem filter_usedIds_length {pool : List Hero} (hids : (pool.map Hero.id).Nodup)
    {n k : Nat} {ts : List (List Hero)} (hv : ValidGroupTuple pool n k ts) :
    (pool.filter (fun it => decide (it.id ∉ usedIds ts))).length = pool.length - n * k := by
  have hsplit := List.length_eq_length_filter_add
    (l := pool) (fun it : Hero => decide (it.id ∈ usedIds ts))
  have hfeq : pool.filter (fun it => !(decide (it.id ∈ usedIds ts))) =
      pool.filter (fun it => decide (it.id ∉ usedIds ts)) := by
    refine List.filter_congr ?_
    intro x _
    simp
  have hmapfil : ((pool.map Hero.id).filter (fun x => decide (x ∈ usedIds ts))).length =
      (pool.filter (fun it => decide (it.id ∈ usedIds ts))).length := by
    rw [List.filter_map]
    simp only [List.length_map]
    rfl
  have hperm : ((pool.map Hero.id).filter (fun x => decide (x ∈ usedIds ts))).Perm
      (usedIds ts) := by
    rw [List.perm_ext_iff_of_nodup (hids.filter _) (usedIds_nodup hids hv)]
    intro x
    simp only [List.mem_filter, decide_eq_true_eq]
    constructor
    · rintro ⟨-, hx⟩
      exact hx
    · intro hx
      exact ⟨usedIds_subset hv x hx, hx⟩
  have hinlen : (pool.filter (fun it => decide (it.id ∈ usedIds ts))).length =
      (usedIds ts).length := by
    rw [← hmapfil]
    exact hperm.length_eq
  have husd := usedIds_length hv
  rw [hfeq] at hsplit
  omega

theorem choose_multiple_length {pool : List Hero} (hids : (pool.map Hero.id).Nodup)
    (n k : Nat) :
    (choose_multiple pool (n + 1) k).length =
      (choose_multiple pool n k).length * ((pool.length - n * k).choose k) := by
  simp only [choose_multiple]
  rw [List.length_flatMap]
  have hmap : (choose_multiple pool n k).map
      (List.length ∘ fun head =>
        (combinations (pool.filter (fun it => decide (it.id ∉ usedIds head))) k).map
          (fun tail => head ++ [tail])) =
      (choose_multiple pool n k).map (fun _ => (pool.length - n * k).choose k) := by
    apply List.map_congr_left
    intro head hhead
    simp only [Function.comp_apply, List.length_map, length_combinations]
    rw [filter_usedIds_length hids (choose_multiple_sound hhead)]
  rw [hmap, List.map_const', List.sum_const_nat]

/-- Full specification of the enumerator at the grand-arena shape: every
yielded tuple is a valid disjoint triple of five-hero groups, every such
triple is yielded, no tuple is yielded twice, and the total count is the
product of binomial coefficients. -/
def ChooseMultipleSpec (pool : List Hero) : Prop :=
  (∀ ts ∈ choose_multiple pool 3 5, ValidGroupTuple pool 3 5 ts) ∧
    (∀ ts, ValidGroupTuple pool 3 5 ts → ts ∈ choose_multiple pool 3 5) ∧
    (choose_multiple pool 3 5).Nodup ∧
    (choose_multiple pool 3 5).length =
      Nat.choose 15 5 * Nat.choose 10 5 * Nat.choose 5 5

/-- Claim C6: over any fifteen-hero pool with pairwise-distinct
identifiers, `choose_multiple pool 3 5` yields exactly the disjoint
5-5-5 group triples, each exactly once, `C(15,5)*C(10,5)*C(5,5)` in
total. -/
theorem c6_choose_multiple_enumeration (pool : List Hero)
    (hlen : pool.length = 15) (hids : (pool.map Hero.id).Nodup) :
    ChooseMultipleSpec pool := by
  refine ⟨fun ts hts => choose_multiple_sound hts,
    fun ts hv => choose_multiple_complete hv,
    choose_multiple_nodup hids 3 5, ?_⟩
  have h0 : (choose_multiple pool 0 5).length = 1 := rfl
  have h1 := choose_multiple_length hids 0 5
  have h2 := choose_multiple_length hids 1 5
  have h3 := choose_multiple_length hids 2 5
  rw [h3, h2, h1, h0, hlen]
  norm_num

/-- Witness for claim C6 over a concrete fifteen-hero pool. -/
theorem c6_choose_multiple_enumeration_witness :
    samplePool15.length = 15 ∧ (samplePool15.map Hero.id).Nodup ∧
      ChooseMultipleSpec samplePool15 :=
  ⟨by decide, by decide, c6_choose_multiple_enumeration _ (by decide) (by decide)⟩

end Bestmobabot
